import Mathlib

/-!
Verification of the wall-follower maze solver (src/main.py).

The embedding mirrors the Python source closely:
* Python lists indexed with `lst[i]` admit negative indices down to `-len`
  (wrap-around) and raise `IndexError` beyond that; this is modelled by
  `pyGet`, returning `none` where Python raises.
* `str.splitlines` is modelled for the terminators LF, CRLF and CR (the
  forms produced by `os.linesep` and ordinary inputs).
* `os.linesep` is the platform line separator; on the platform of record
  (Linux) it is a single LF, which `joinLines` uses.
* Fatal parse failures (`sys.exit` / raised `ValueError`) are modelled as
  `Except.error` values carrying the printed message.
-/

namespace MazeSolver

/-- The four cell kinds of `EFloor` in src/main.py. -/
inductive EFloor
  | Normal
  | Wall
  | Start
  | Goal
deriving DecidableEq, Repr

/-- `EFloor.to_char` from src/main.py. -/
def EFloor.to_char : EFloor → Char
  | .Normal => ' '
  | .Wall => '*'
  | .Start => 'o'
  | .Goal => 'x'

/-- The ASCII single-quote character, used in the Python error message. -/
def sq : Char := Char.ofNat 39

/-- Errors surfaced by the parsing code: `ValueError` from `EFloor.of`,
the `sys.exit` paths of `Maze._validate`, and the `IndexError` Python
would raise if `_find_xy` found nothing (unreachable after validation). -/
inductive ParseError
  | InvalidGlyph (msg : String)
  | MissingMarker (msg : String)
  | IndexErr
deriving DecidableEq, Repr

/-- The message of the `ValueError` raised by `EFloor.of`. -/
def invalidCharMsg (c : Char) : String :=
  "Invalid character: " ++ String.singleton sq ++ String.singleton c ++ String.singleton sq

/-- The line printed by `Maze._validate` when the start marker is missing. -/
def missingStartMsg : String :=
  "Error: Cannot find the beginning position. Abort program."

/-- The line printed by `Maze._validate` when the goal marker is missing. -/
def missingGoalMsg : String :=
  "Error: Cannot find the exit position. Abort program."

/-- `EFloor.of` from src/main.py (static glyph-to-kind conversion). -/
def EFloor.of (c : Char) : Except ParseError EFloor :=
  if c = ' ' then .ok .Normal
  else if c = '*' then .ok .Wall
  else if c = 'o' then .ok .Start
  else if c = 'x' then .ok .Goal
  else .error (.InvalidGlyph (invalidCharMsg c))

/-- `Vector2D` from src/main.py. -/
structure Vector2D where
  x : Int
  y : Int
deriving DecidableEq, Repr

/-- `Point2D` from src/main.py. -/
structure Point2D where
  x : Int
  y : Int
deriving DecidableEq, Repr

/-- `Point2D.__add__` from src/main.py. -/
def Point2D.add (p : Point2D) (v : Vector2D) : Point2D :=
  ⟨p.x + v.x, p.y + v.y⟩

instance : HAdd Point2D Vector2D Point2D := ⟨Point2D.add⟩

/-- Python list indexing `l[i]`: indices `0 ≤ i < len` hit directly,
`-len ≤ i < 0` wrap around to `len + i`, anything else raises
(`none` here). -/
def pyGet {α : Type} (l : List α) (i : Int) : Option α :=
  if 0 ≤ i ∧ i < (l.length : Int) then l[i.toNat]?
  else if -(l.length : Int) ≤ i ∧ i < 0 then l[(i + l.length).toNat]?
  else none

/-- Whether a character terminates a line for `str.splitlines`
(LF and CR; CRLF is handled as a pair by `splitlinesAux`). -/
def isLineTerm (c : Char) : Bool :=
  c = '\n' || c = '\r'

/-- Accumulator-passing core of `str.splitlines`. -/
def splitlinesAux : List Char → List Char → List (List Char)
  | [], acc => if acc.isEmpty then [] else [acc.reverse]
  | [c], acc =>
    if isLineTerm c then [acc.reverse]
    else [(c :: acc).reverse]
  | c :: d :: rest, acc =>
    if c = '\n' then acc.reverse :: splitlinesAux (d :: rest) []
    else if c = '\r' then
      if d = '\n' then acc.reverse :: splitlinesAux rest []
      else acc.reverse :: splitlinesAux (d :: rest) []
    else splitlinesAux (d :: rest) (c :: acc)

/-- `str.splitlines` (LF / CRLF / CR), as used by `Maze.parse`. -/
def splitlines (s : List Char) : List (List Char) :=
  splitlinesAux s []

/-- `os.linesep.join(lines)` with the Linux separator (single LF),
as used by `Maze.to_string`. -/
def joinLines : List (List Char) → List Char
  | [] => []
  | [r] => r
  | r :: rest => r ++ '\n' :: joinLines rest

/-- One line of the comprehension in `Maze.parse`:
`[EFloor.of(aChar) for aChar in line]`, first raise wins. -/
def mapOf : List Char → Except ParseError (List EFloor)
  | [] => .ok []
  | c :: cs =>
    match EFloor.of c with
    | .error e => .error e
    | .ok f =>
      match mapOf cs with
      | .error e => .error e
      | .ok fs => .ok (f :: fs)

/-- The outer comprehension of `Maze.parse` over all lines. -/
def rowsOf : List (List Char) → Except ParseError (List (List EFloor))
  | [] => .ok []
  | line :: rest =>
    match mapOf line with
    | .error e => .error e
    | .ok row =>
      match rowsOf rest with
      | .error e => .error e
      | .ok rows => .ok (row :: rows)

/-- `list.index` on a row, only meaningful when the kind is present
(`Maze._find_xy` guards membership before calling it). -/
def idxOf (kind : EFloor) : List EFloor → Nat
  | [] => 0
  | f :: fs => if f = kind then 0 else idxOf kind fs + 1

/-- `Maze._find_xy`: row index of the first row containing the kind,
column index of its first occurrence in that row. -/
def find_xy (kind : EFloor) : List (List EFloor) → Option Point2D
  | [] => none
  | row :: rest =>
    if kind ∈ row then some ⟨0, (idxOf kind row : Int)⟩
    else (find_xy kind rest).map (fun p => ⟨p.x + 1, p.y⟩)

/-- `Maze` from src/main.py. -/
structure Maze where
  floor : List (List EFloor)
  start : Point2D
  goal : Point2D
deriving DecidableEq, Repr

/-- `Maze.to_string` from src/main.py. -/
def Maze.to_string (m : Maze) : String :=
  ⟨joinLines (m.floor.map (fun row => row.map EFloor.to_char))⟩

/-- `Maze._validate`: start marker checked first, then goal marker. -/
def Maze.validate (s : List Char) : Except ParseError Unit :=
  if 'o' ∈ s then
    if 'x' ∈ s then .ok ()
    else .error (.MissingMarker missingGoalMsg)
  else .error (.MissingMarker missingStartMsg)

/-- `Maze.parse` from src/main.py. -/
def Maze.parse (s : String) : Except ParseError Maze :=
  match Maze.validate s.data with
  | .error e => .error e
  | .ok _ =>
    match rowsOf (splitlines s.data) with
    | .error e => .error e
    | .ok floors =>
      match find_xy .Start floors, find_xy .Goal floors with
      | some st, some gl => .ok ⟨floors, st, gl⟩
      | _, _ => .error .IndexErr

/-- `EOrientation` from src/main.py. -/
inductive EOrientation
  | North
  | West
  | South
  | East
deriving DecidableEq, Repr, Fintype

/-- The `Vector2D` value attached to each `EOrientation` member. -/
def EOrientation.value : EOrientation → Vector2D
  | .North => ⟨-1, 0⟩
  | .West => ⟨0, -1⟩
  | .South => ⟨1, 0⟩
  | .East => ⟨0, 1⟩

/-- `EOrientation.turn_to_the_right` from src/main.py. -/
def EOrientation.turn_to_the_right : EOrientation → EOrientation
  | .North => .East
  | .West => .North
  | .South => .West
  | .East => .South

/-- `EOrientation.turn_to_the_left` from src/main.py. -/
def EOrientation.turn_to_the_left : EOrientation → EOrientation
  | .North => .West
  | .West => .South
  | .South => .East
  | .East => .North

/-- `EOrientation.turn_around` from src/main.py. -/
def EOrientation.turn_around : EOrientation → EOrientation
  | .North => .South
  | .West => .East
  | .South => .North
  | .East => .West

/-- `Pose` from src/main.py: a named tuple with structural equality. -/
structure Pose where
  position : Point2D
  orientation : EOrientation
deriving DecidableEq, Repr

/-- `Player` from src/main.py (the mutable agent, modelled as a value). -/
structure Player where
  position : Point2D
  orientation : EOrientation
deriving DecidableEq, Repr

/-- `Player.is_located_at` from src/main.py. -/
def Player.is_located_at (p : Player) (pos : Point2D) : Bool :=
  p.position = pos

/-- `Player.turn_to_the_right` from src/main.py. -/
def Player.turn_to_the_right (p : Player) : Player :=
  ⟨p.position, p.orientation.turn_to_the_right⟩

/-- `Player.keep_orientation` from src/main.py (intentional no-op). -/
def Player.keep_orientation (p : Player) : Player :=
  p

/-- `Player.turn_to_the_left` from src/main.py. -/
def Player.turn_to_the_left (p : Player) : Player :=
  ⟨p.position, p.orientation.turn_to_the_left⟩

/-- `Player.turn_around` from src/main.py. -/
def Player.turn_around (p : Player) : Player :=
  ⟨p.position, p.orientation.turn_around⟩

/-- `Player.step_forward` from src/main.py. -/
def Player.step_forward (p : Player) : Player :=
  ⟨p.position + p.orientation.value, p.orientation⟩

/-- `Player.to_Pose` from src/main.py. -/
def Player.to_Pose (p : Player) : Pose :=
  ⟨p.position, p.orientation⟩

/-- The cell lookup `self.maze.floor[pos.x][pos.y]` of
`MazeManager._player_can_go`, with Python indexing. -/
def cellAt (m : Maze) (pos : Point2D) : Option EFloor :=
  (pyGet m.floor pos.x).bind (fun row => pyGet row pos.y)

/-- `MazeManager._player_can_go` (leading underscore dropped):
`none` models the `IndexError` Python raises on an out-of-range probe. -/
def player_can_go (m : Maze) (pos : Point2D) : Option Bool :=
  (cellAt m pos).map (fun k => decide (k ≠ EFloor.Wall))

/-- `MazeManager.player_can_go_right` from src/main.py. -/
def player_can_go_right (m : Maze) (p : Player) : Option Bool :=
  player_can_go m (p.position + p.orientation.turn_to_the_right.value)

/-- `MazeManager.player_can_go_forward` from src/main.py. -/
def player_can_go_forward (m : Maze) (p : Player) : Option Bool :=
  player_can_go m (p.position + p.orientation.value)

/-- `MazeManager.player_can_go_left` from src/main.py. -/
def player_can_go_left (m : Maze) (p : Player) : Option Bool :=
  player_can_go m (p.position + p.orientation.turn_to_the_left.value)

/-- `MazeManager.player_can_go_backward` from src/main.py
(defined there but never consulted by the decision chain). -/
def player_can_go_backward (m : Maze) (p : Player) : Option Bool :=
  player_can_go m (p.position + p.orientation.turn_around.value)

/-- One loop-body decision of `MazeManager.process_players_trial`:
try right, straight, left in order, falling back to the unconditional
about-face; `none` models a probe raising `IndexError`. -/
def trialStep (m : Maze) (p : Player) : Option Player :=
  match player_can_go_right m p with
  | none => none
  | some true => some ((p.turn_to_the_right).step_forward)
  | some false =>
    match player_can_go_forward m p with
    | none => none
    | some true => some ((p.keep_orientation).step_forward)
    | some false =>
      match player_can_go_left m p with
      | none => none
      | some true => some ((p.turn_to_the_left).step_forward)
      | some false => some ((p.turn_around).step_forward)

/-- Terminal outcome of a run: the two printed verdicts, plus `Crashed`
for the `IndexError` Python would raise on an out-of-range probe. -/
inductive Outcome
  | Solved
  | Unsolvable
  | Crashed
deriving DecidableEq, Repr

/-- The loop of `MazeManager.process_players_trial`, fuelled.  `seen` is
the `history` set (kept as the chronological list of recorded poses, with
the same membership test).  The returned list is the full sequence of
loop-entry poses, the terminal one included; `none` means the fuel ran
out before the loop terminated. -/
def process (m : Maze) : Nat → Player → List Pose → Option (Outcome × List Pose)
  | 0, _, _ => none
  | fuel + 1, p, seen =>
    if p.position = m.goal then some (.Solved, seen ++ [p.to_Pose])
    else if p.to_Pose ∈ seen then some (.Unsolvable, seen ++ [p.to_Pose])
    else
      match trialStep m p with
      | none => some (.Crashed, seen ++ [p.to_Pose])
      | some p2 => process m fuel p2 (seen ++ [p.to_Pose])

/-- `MazeManager.process_players_trial`, started with an empty history. -/
def run (m : Maze) (p : Player) (fuel : Nat) : Option (Outcome × List Pose) :=
  process m fuel p []

/-- Longest row length of a floor grid (rows may be ragged). -/
def maxRowLen : List (List EFloor) → Nat
  | [] => 0
  | r :: rest => max r.length (maxRowLen rest)

/-- Whether a position addresses an actual cell of the grid (ordinary,
non-wrapping indexing). -/
def isCell (m : Maze) (pos : Point2D) : Bool :=
  decide (0 ≤ pos.x) && decide (pos.x < (m.floor.length : Int)) &&
    decide (0 ≤ pos.y) && decide (pos.y < ((m.floor.getD pos.x.toNat []).length : Int))

/-- The maze parsed from the text `"ox"`. -/
def mazeOX : Maze := ⟨[[.Start, .Goal]], ⟨0, 0⟩, ⟨0, 1⟩⟩

/-- The maze parsed from `"***\n*o*\n***\nx"`: the start cell is walled in
on all four sides. -/
def boxedMaze : Maze :=
  ⟨[[.Wall, .Wall, .Wall], [.Wall, .Start, .Wall], [.Wall, .Wall, .Wall], [.Goal]],
   ⟨1, 1⟩, ⟨3, 0⟩⟩

/-- The maze parsed from `"****\n*o *\n****\nx"`: a two-cell chamber whose
goal lies outside it. -/
def chamberMaze : Maze :=
  ⟨[[.Wall, .Wall, .Wall, .Wall], [.Wall, .Start, .Normal, .Wall],
    [.Wall, .Wall, .Wall, .Wall], [.Goal]],
   ⟨1, 1⟩, ⟨3, 0⟩⟩

/-- The loop-entry poses of the run on `chamberMaze` starting East. -/
def chamberTraj : List Pose :=
  [⟨⟨1, 1⟩, .East⟩, ⟨⟨1, 2⟩, .East⟩, ⟨⟨1, 1⟩, .West⟩, ⟨⟨1, 2⟩, .East⟩]

/-- Successive loop-entry poses are related by the loop-body decision. -/
def stepRel (m : Maze) (a b : Pose) : Prop :=
  trialStep m ⟨a.position, a.orientation⟩ = some ⟨b.position, b.orientation⟩

instance {ε α : Type} [DecidableEq ε] [DecidableEq α] : DecidableEq (Except ε α) :=
  fun a b =>
  match a, b with
  | .error e, .error f =>
    if h : e = f then isTrue (congrArg Except.error h)
    else isFalse (fun hc => h (Except.error.inj hc))
  | .ok x, .ok y =>
    if h : x = y then isTrue (congrArg Except.ok h)
    else isFalse (fun hc => h (Except.ok.inj hc))
  | .error _, .ok _ => isFalse (fun hc => Except.noConfusion hc)
  | .ok _, .error _ => isFalse (fun hc => Except.noConfusion hc)

/-- The index box that every position reachable by the loop inhabits:
one step beyond the wrap-around index range of Python list indexing. -/
def posBound (m : Maze) (pt : Point2D) : Prop :=
  -((m.floor.length : Int) + 1) ≤ pt.x ∧ pt.x ≤ (m.floor.length : Int) ∧
  -((maxRowLen m.floor : Int) + 1) ≤ pt.y ∧ pt.y ≤ (maxRowLen m.floor : Int)

instance (m : Maze) (pt : Point2D) : Decidable (posBound m pt) :=
  inferInstanceAs (Decidable (_ ≤ _ ∧ _ ≤ _ ∧ _ ≤ _ ∧ _ ≤ _))

/-- All poses whose position lies in the index box. -/
def poseFinset (m : Maze) : Finset Pose :=
  ((Finset.Icc (-((m.floor.length : Int) + 1)) (m.floor.length : Int)) ×ˢ
    (Finset.Icc (-((maxRowLen m.floor : Int) + 1)) (maxRowLen m.floor : Int)) ×ˢ
    (Finset.univ : Finset EOrientation)).image
    (fun t => ⟨⟨t.1, t.2.1⟩, t.2.2⟩)

/-- Size bound for `poseFinset`: with R rows and a longest row of C cells,
at most (2R+2)·(2C+2)·4 poses exist in the box. -/
def NBound (m : Maze) : Nat :=
  (2 * m.floor.length + 2) * ((2 * maxRowLen m.floor + 2) * 4)

/-- The four characters of the glyph table. -/
def isGlyph (c : Char) : Bool :=
  c = ' ' || c = '*' || c = 'o' || c = 'x'

@[simp] lemma Point2D.add_def (p : Point2D) (v : Vector2D) :
    p + v = ⟨p.x + v.x, p.y + v.y⟩ := rfl

lemma pyGet_some_bounds {α : Type} {l : List α} {i : Int} {a : α}
    (h : pyGet l i = some a) : -(l.length : Int) ≤ i ∧ i < l.length := by
  unfold pyGet at h
  split at h
  · omega
  · split at h
    · omega
    · exact absurd h (by simp)

lemma pyGet_mem {α : Type} {l : List α} {i : Int} {a : α}
    (h : pyGet l i = some a) : a ∈ l := by
  unfold pyGet at h
  split at h
  · exact List.mem_iff_getElem?.mpr ⟨_, h⟩
  · split at h
    · exact List.mem_iff_getElem?.mpr ⟨_, h⟩
    · exact absurd h (by simp)

lemma pyGet_isSome {α : Type} {l : List α} {i : Int}
    (h0 : -(l.length : Int) ≤ i) (h1 : i < l.length) : ∃ a, pyGet l i = some a := by
  unfold pyGet
  by_cases hc : 0 ≤ i ∧ i < (l.length : Int)
  · rw [if_pos hc]
    have hn : i.toNat < l.length := by omega
    exact ⟨_, List.getElem?_eq_getElem hn⟩
  · rw [if_neg hc, if_pos ⟨h0, by omega⟩]
    have hn : (i + l.length).toNat < l.length := by omega
    exact ⟨_, List.getElem?_eq_getElem hn⟩

lemma pyGet_neg_one {α : Type} {l : List α} (h : 0 < l.length) :
    pyGet l (-1) = pyGet l ((l.length : Int) - 1) := by
  unfold pyGet
  rw [if_neg (by omega), if_pos (by omega : -(l.length : Int) ≤ -1 ∧ (-1 : Int) < 0),
    if_pos (by omega : (0 : Int) ≤ (l.length : Int) - 1 ∧ (l.length : Int) - 1 < l.length)]
  congr 1

lemma pyGet_none_of_ge {α : Type} {l : List α} {i : Int}
    (h : (l.length : Int) ≤ i) : pyGet l i = none := by
  unfold pyGet
  rw [if_neg (by omega), if_neg (by omega)]

lemma length_le_maxRowLen {fl : List (List EFloor)} {row : List EFloor}
    (h : row ∈ fl) : row.length ≤ maxRowLen fl := by
  induction fl with
  | nil => simp at h
  | cons r rest ih =>
    rcases List.mem_cons.mp h with h1 | h2
    · subst h1
      exact le_max_left _ _
    · exact le_trans (ih h2) (le_max_right _ _)

lemma cellAt_some_elim {m : Maze} {pos : Point2D} {k : EFloor}
    (h : cellAt m pos = some k) :
    ∃ row, pyGet m.floor pos.x = some row ∧ pyGet row pos.y = some k := by
  unfold cellAt at h
  cases hx : pyGet m.floor pos.x with
  | none => rw [hx] at h; exact absurd h (by simp)
  | some row => exact ⟨row, rfl, by rw [hx] at h; exact h⟩

lemma player_can_go_false_iff {m : Maze} {pos : Point2D} :
    player_can_go m pos = some false ↔ cellAt m pos = some EFloor.Wall := by
  unfold player_can_go
  cases h : cellAt m pos with
  | none => simp
  | some k => cases k <;> simp

lemma player_can_go_true_iff {m : Maze} {pos : Point2D} :
    player_can_go m pos = some true ↔
      ∃ k, cellAt m pos = some k ∧ k ≠ EFloor.Wall := by
  unfold player_can_go
  cases h : cellAt m pos with
  | none => simp
  | some k => cases k <;> simp

/-- C9: the four orientation mutators leave the agent position unchanged
(changing at most the orientation, each via the corresponding
`EOrientation` transform, `keep_orientation` changing nothing at all),
and `step_forward` keeps the orientation and advances the position by the
orientation unit vector. -/
theorem player_mutators_frame (p : Player) :
    (p.turn_to_the_right).position = p.position ∧
    (p.turn_to_the_right).orientation = p.orientation.turn_to_the_right ∧
    (p.turn_to_the_left).position = p.position ∧
    (p.turn_to_the_left).orientation = p.orientation.turn_to_the_left ∧
    (p.turn_around).position = p.position ∧
    (p.turn_around).orientation = p.orientation.turn_around ∧
    p.keep_orientation = p ∧
    (p.step_forward).orientation = p.orientation ∧
    (p.step_forward).position = p.position + p.orientation.value :=
  ⟨rfl, rfl, rfl, rfl, rfl, rfl, rfl, rfl, rfl⟩

/-- C10: the probe `_player_can_go` is not uniform on out-of-grid
positions: a row or column coordinate of -1 wraps around to the last row
or to the last column of the probed row; a row coordinate at least the
number of rows, or a column coordinate at least the probed row's length,
makes the lookup fail (`IndexError`, modelled `none`); and the probe
reports `false` (blocked) only when the looked-up cell really is a Wall,
never merely for being outside the grid. -/
theorem player_can_go_wraparound :
    (∀ (m : Maze) (y : Int), 0 < m.floor.length →
      player_can_go m ⟨-1, y⟩ = player_can_go m ⟨(m.floor.length : Int) - 1, y⟩) ∧
    (∀ (m : Maze) (x : Int) (row : List EFloor),
      pyGet m.floor x = some row → 0 < row.length →
      player_can_go m ⟨x, -1⟩ = player_can_go m ⟨x, (row.length : Int) - 1⟩) ∧
    (∀ (m : Maze) (pos : Point2D), (m.floor.length : Int) ≤ pos.x →
      player_can_go m pos = none) ∧
    (∀ (m : Maze) (pos : Point2D) (row : List EFloor),
      pyGet m.floor pos.x = some row → (row.length : Int) ≤ pos.y →
      player_can_go m pos = none) ∧
    (∀ (m : Maze) (pos : Point2D), player_can_go m pos = some false →
      cellAt m pos = some EFloor.Wall) := by
  refine ⟨?_, ?_, ?_, ?_, ?_⟩
  · intro m y h
    unfold player_can_go cellAt
    rw [pyGet_neg_one h]
  · intro m x row hrow h
    unfold player_can_go cellAt
    rw [hrow]
    simp only [Option.some_bind]
    rw [pyGet_neg_one h]
  · intro m pos h
    unfold player_can_go cellAt
    rw [pyGet_none_of_ge h]
    rfl
  · intro m pos row hrow h
    unfold player_can_go cellAt
    rw [hrow]
    simp only [Option.some_bind]
    rw [pyGet_none_of_ge h]
    rfl
  · intro m pos h
    exact player_can_go_false_iff.mp h

/-- Closed instance of `player_can_go_wraparound` on concrete mazes. -/
theorem player_can_go_wraparound_witness :
    player_can_go mazeOX ⟨-1, 0⟩ = player_can_go mazeOX ⟨(mazeOX.floor.length : Int) - 1, 0⟩ ∧
    player_can_go mazeOX ⟨0, -1⟩ =
      player_can_go mazeOX ⟨0, (([EFloor.Start, EFloor.Goal] : List EFloor).length : Int) - 1⟩ ∧
    player_can_go mazeOX ⟨1, 0⟩ = none ∧
    player_can_go mazeOX ⟨0, 2⟩ = none ∧
    cellAt boxedMaze ⟨0, 0⟩ = some EFloor.Wall :=
  ⟨player_can_go_wraparound.1 mazeOX 0 (by decide),
   player_can_go_wraparound.2.1 mazeOX 0 [EFloor.Start, EFloor.Goal] (by decide) (by decide),
   player_can_go_wraparound.2.2.1 mazeOX ⟨1, 0⟩ (by decide),
   player_can_go_wraparound.2.2.2.1 mazeOX ⟨0, 2⟩ [EFloor.Start, EFloor.Goal] (by decide) (by decide),
   player_can_go_wraparound.2.2.2.2 boxedMaze ⟨0, 0⟩ (by decide)⟩

/-- C1: the loop body tests right, straight, left in that strict order,
applies the first candidate whose prospective cell (current position plus
the candidate orientation's unit vector) exists and is not a Wall — the
applied transition sets the orientation to the candidate and advances one
step — and when right, straight and left are all blocked it applies the
about-face unconditionally, with no passability test of the rear cell. -/
theorem trial_priority (m : Maze) (p : Player) :
    (∀ k, cellAt m (p.position + p.orientation.turn_to_the_right.value) = some k →
      k ≠ EFloor.Wall →
      trialStep m p = some ⟨p.position + p.orientation.turn_to_the_right.value,
        p.orientation.turn_to_the_right⟩) ∧
    (cellAt m (p.position + p.orientation.turn_to_the_right.value) = some EFloor.Wall →
      ∀ k, cellAt m (p.position + p.orientation.value) = some k → k ≠ EFloor.Wall →
      trialStep m p = some ⟨p.position + p.orientation.value, p.orientation⟩) ∧
    (cellAt m (p.position + p.orientation.turn_to_the_right.value) = some EFloor.Wall →
      cellAt m (p.position + p.orientation.value) = some EFloor.Wall →
      ∀ k, cellAt m (p.position + p.orientation.turn_to_the_left.value) = some k →
      k ≠ EFloor.Wall →
      trialStep m p = some ⟨p.position + p.orientation.turn_to_the_left.value,
        p.orientation.turn_to_the_left⟩) ∧
    (cellAt m (p.position + p.orientation.turn_to_the_right.value) = some EFloor.Wall →
      cellAt m (p.position + p.orientation.value) = some EFloor.Wall →
      cellAt m (p.position + p.orientation.turn_to_the_left.value) = some EFloor.Wall →
      trialStep m p = some ⟨p.position + p.orientation.turn_around.value,
        p.orientation.turn_around⟩) := by
  refine ⟨?_, ?_, ?_, ?_⟩
  · intro k hk hkw
    have hr : player_can_go_right m p = some true :=
      player_can_go_true_iff.mpr ⟨k, hk, hkw⟩
    unfold trialStep
    rw [hr]
    rfl
  · intro hrw k hk hkw
    have hr : player_can_go_right m p = some false := player_can_go_false_iff.mpr hrw
    have hf : player_can_go_forward m p = some true :=
      player_can_go_true_iff.mpr ⟨k, hk, hkw⟩
    unfold trialStep
    rw [hr, hf]
    rfl
  · intro hrw hfw k hk hkw
    have hr : player_can_go_right m p = some false := player_can_go_false_iff.mpr hrw
    have hf : player_can_go_forward m p = some false := player_can_go_false_iff.mpr hfw
    have hl : player_can_go_left m p = some true :=
      player_can_go_true_iff.mpr ⟨k, hk, hkw⟩
    unfold trialStep
    rw [hr, hf, hl]
    rfl
  · intro hrw hfw hlw
    have hr : player_can_go_right m p = some false := player_can_go_false_iff.mpr hrw
    have hf : player_can_go_forward m p = some false := player_can_go_false_iff.mpr hfw
    have hl : player_can_go_left m p = some false := player_can_go_false_iff.mpr hlw
    unfold trialStep
    rw [hr, hf, hl]
    rfl

/-- Closed instance of `trial_priority`: on `boxedMaze` the agent facing
East has right, straight and left all walled, and the about-face is
applied even though the rear cell (1,0) is itself a Wall. -/
theorem trial_priority_witness :
    trialStep boxedMaze ⟨⟨1, 1⟩, .East⟩ = some ⟨⟨1, 0⟩, .West⟩ ∧
    cellAt boxedMaze ⟨1, 0⟩ = some EFloor.Wall ∧
    player_can_go_backward boxedMaze ⟨⟨1, 1⟩, .East⟩ = some false :=
  ⟨(trial_priority boxedMaze ⟨⟨1, 1⟩, .East⟩).2.2.2 (by decide) (by decide) (by decide),
   by decide, by decide⟩

lemma nodup_snoc {α : Type} {l : List α} {a : α} :
    (l ++ [a]).Nodup ↔ l.Nodup ∧ a ∉ l := by
  simp [List.nodup_append]

lemma get_append_left {α : Type} {l₁ l₂ : List α} (i : Nat) (h : i < l₁.length)
    {h2 : i < (l₁ ++ l₂).length} : (l₁ ++ l₂).get ⟨i, h2⟩ = l₁.get ⟨i, h⟩ := by
  simp only [List.get_eq_getElem]
  exact List.getElem_append_left h

/-- Structure of a completed loop: a `Solved` result ends in a goal pose
after distinct non-goal poses, an `Unsolvable` result ends in a repeat of
an earlier pose while off the goal, and a `Crashed` trace is duplicate-free
and goal-free throughout. -/
lemma process_char (m : Maze) :
    ∀ (fuel : Nat) (p : Player) (seen : List Pose) (out : Outcome) (traj : List Pose),
      seen.Nodup → (∀ q ∈ seen, q.position ≠ m.goal) →
      process m fuel p seen = some (out, traj) →
      ((out = .Solved → ∃ pre fin, traj = pre ++ [fin] ∧ fin.position = m.goal ∧
          pre.Nodup ∧ ∀ q ∈ pre, q.position ≠ m.goal) ∧
       (out = .Unsolvable → ∃ pre fin, traj = pre ++ [fin] ∧ fin.position ≠ m.goal ∧
          fin ∈ pre ∧ pre.Nodup ∧ ∀ q ∈ pre, q.position ≠ m.goal) ∧
       (out = .Crashed → traj.Nodup ∧ ∀ q ∈ traj, q.position ≠ m.goal)) := by
  intro fuel
  induction fuel with
  | zero =>
    intro p seen out traj _ _ h
    simp [process] at h
  | succ n ih =>
    intro p seen out traj hnd hng h
    simp only [process] at h
    by_cases hg : p.position = m.goal
    · rw [if_pos hg] at h
      have h2 := Option.some.inj h
      injection h2 with hout htraj
      subst hout
      subst htraj
      exact ⟨fun _ => ⟨seen, p.to_Pose, rfl, hg, hnd, hng⟩,
        fun hco => absurd hco (by decide), fun hco => absurd hco (by decide)⟩
    · rw [if_neg hg] at h
      by_cases hm : p.to_Pose ∈ seen
      · rw [if_pos hm] at h
        have h2 := Option.some.inj h
        injection h2 with hout htraj
        subst hout
        subst htraj
        exact ⟨fun hco => absurd hco (by decide),
          fun _ => ⟨seen, p.to_Pose, rfl, hg, hm, hnd, hng⟩,
          fun hco => absurd hco (by decide)⟩
      · rw [if_neg hm] at h
        cases hstep : trialStep m p with
        | none =>
          rw [hstep] at h
          have h2 := Option.some.inj h
          injection h2 with hout htraj
          subst hout
          subst htraj
          refine ⟨fun hco => absurd hco (by decide), fun hco => absurd hco (by decide),
            fun _ => ⟨nodup_snoc.mpr ⟨hnd, hm⟩, ?_⟩⟩
          intro q hq
          rcases List.mem_append.mp hq with h1 | h2
          · exact hng q h1
          · rw [List.mem_singleton.mp h2]
            exact hg
        | some p2 =>
          rw [hstep] at h
          refine ih p2 (seen ++ [p.to_Pose]) out traj (nodup_snoc.mpr ⟨hnd, hm⟩) ?_ h
          intro q hq
          rcases List.mem_append.mp hq with h1 | h2
          · exact hng q h1
          · rw [List.mem_singleton.mp h2]
            exact hg

/-- C2: a completed run returns `Unsolvable` exactly when some pose
(position and orientation, compared structurally on both fields) occurs
twice in the loop-entry trajectory with no goal visit up to the repeat;
a repeated position under a different orientation never terminates the
loop, since the repeat is required of the whole pose. -/
theorem run_unsolvable_iff (m : Maze) (p : Player) (fuel : Nat) (out : Outcome)
    (traj : List Pose) (h : run m p fuel = some (out, traj)) :
    out = Outcome.Unsolvable ↔
      ∃ (i j : Nat) (hi : i < traj.length) (hj : j < traj.length), i < j ∧
        traj.get ⟨i, hi⟩ = traj.get ⟨j, hj⟩ ∧
        ∀ (k : Nat) (hk : k < traj.length), k ≤ j →
          (traj.get ⟨k, hk⟩).position ≠ m.goal := by
  obtain ⟨hS, hU, hC⟩ := process_char m fuel p [] out traj List.nodup_nil (by simp) h
  constructor
  · intro hout
    obtain ⟨pre, fin, htr, hfin, hmem, hndp, hpng⟩ := hU hout
    subst htr
    obtain ⟨⟨i, hi⟩, hget⟩ := List.mem_iff_get.mp hmem
    have hj : pre.length < (pre ++ [fin]).length := by simp
    have hi2 : i < (pre ++ [fin]).length := by simp; omega
    have e2 : (pre ++ [fin]).get ⟨pre.length, hj⟩ = fin := by
      simp [List.get_eq_getElem, List.getElem_append_right (le_refl pre.length)]
    refine ⟨i, pre.length, hi2, hj, hi, ?_, ?_⟩
    · have e1 : (pre ++ [fin]).get ⟨i, hi2⟩ = pre.get ⟨i, hi⟩ := get_append_left i hi
      rw [e1, e2, hget]
    · intro k hk hkle
      by_cases hklt : k < pre.length
      · rw [get_append_left k hklt]
        exact hpng _ (List.get_mem pre k hklt)
      · have hke : k = pre.length := by
          simp at hk
          omega
        subst hke
        rw [e2]
        exact hfin
  · intro hx
    obtain ⟨i, j, hi, hj, hij, heq, hng⟩ := hx
    cases out with
    | Unsolvable => rfl
    | Solved =>
      exfalso
      obtain ⟨pre, fin, htr, hfin, hndp, hpng⟩ := hS rfl
      subst htr
      rcases Nat.lt_or_ge j pre.length with hjlt | hjge
      · have hilt : i < pre.length := lt_trans hij hjlt
        have e1 : (pre ++ [fin]).get ⟨i, hi⟩ = pre.get ⟨i, hilt⟩ := get_append_left i hilt
        have ej : (pre ++ [fin]).get ⟨j, hj⟩ = pre.get ⟨j, hjlt⟩ := get_append_left j hjlt
        rw [e1, ej] at heq
        have hfe := (hndp.get_inj_iff).mp heq
        have hval := congrArg Fin.val hfe
        simp at hval
        omega
      · have hje : j = pre.length := by
          simp at hj
          omega
        subst hje
        have e2 : (pre ++ [fin]).get ⟨pre.length, hj⟩ = fin := by
          simp [List.get_eq_getElem, List.getElem_append_right (le_refl pre.length)]
        have hk := hng pre.length hj le_rfl
        rw [e2] at hk
        exact hk hfin
    | Crashed =>
      exfalso
      obtain ⟨hnd, _⟩ := hC rfl
      have hfe := (hnd.get_inj_iff).mp heq
      have hval := congrArg Fin.val hfe
      simp at hval
      omega

/-- Closed instance of `run_unsolvable_iff`: the run on `chamberMaze`
(text `"****\n*o *\n****\nx"`) starting East revisits the pose
((1,2), East) without reaching the goal, and revisits position (1,1)
under two different orientations without terminating there. -/
theorem run_unsolvable_iff_witness :
    ∃ (i j : Nat) (hi : i < chamberTraj.length) (hj : j < chamberTraj.length), i < j ∧
      chamberTraj.get ⟨i, hi⟩ = chamberTraj.get ⟨j, hj⟩ ∧
      ∀ (k : Nat) (hk : k < chamberTraj.length), k ≤ j →
        (chamberTraj.get ⟨k, hk⟩).position ≠ chamberMaze.goal :=
  (run_unsolvable_iff chamberMaze ⟨⟨1, 1⟩, .East⟩ 10 .Unsolvable chamberTraj
    (by decide)).mp rfl

/-- C5: when the agent already stands on the goal the loop exits at once
with `Solved` and a single loop-entry pose (zero transitions), for any
orientation; the goal test is decided before the history test, so this
holds even when the current pose is already recorded in the history. -/
theorem goal_priority (m : Maze) (p : Player) (hg : p.position = m.goal) :
    (∀ fuel, 0 < fuel → run m p fuel = some (.Solved, [p.to_Pose])) ∧
    (∀ (fuel : Nat) (seen : List Pose),
      process m (fuel + 1) p seen = some (.Solved, seen ++ [p.to_Pose])) := by
  constructor
  · intro fuel hf
    obtain ⟨n, rfl⟩ : ∃ n, fuel = n + 1 := ⟨fuel - 1, by omega⟩
    show process m (n + 1) p [] = _
    simp only [process]
    rw [if_pos hg]
    rfl
  · intro fuel seen
    simp only [process]
    rw [if_pos hg]

/-- Closed instance of `goal_priority` on `mazeOX` with the agent placed
on the goal cell. -/
theorem goal_priority_witness :
    run mazeOX ⟨⟨0, 1⟩, .North⟩ 5 = some (.Solved, [⟨⟨0, 1⟩, .North⟩]) :=
  (goal_priority mazeOX ⟨⟨0, 1⟩, .North⟩ (by decide)).1 5 (by decide)

/-- A transition chosen through one of the three passability tests lands
on an existing non-Wall cell; only the about-face fallback is exempt. -/
lemma trialStep_tested_not_wall {m : Maze} {p p2 : Player}
    (h : trialStep m p = some p2) (hnb : p2.orientation ≠ p.orientation.turn_around) :
    ∃ k, cellAt m p2.position = some k ∧ k ≠ EFloor.Wall := by
  unfold trialStep at h
  cases hr : player_can_go_right m p with
  | none =>
    rw [hr] at h
    exact absurd h (by simp)
  | some br =>
    rw [hr] at h
    cases br with
    | true =>
      have h2 := Option.some.inj h
      obtain ⟨k, hk, hkw⟩ := player_can_go_true_iff.mp hr
      refine ⟨k, ?_, hkw⟩
      rw [← h2]
      exact hk
    | false =>
      cases hf : player_can_go_forward m p with
      | none =>
        rw [hf] at h
        exact absurd h (by simp)
      | some bf =>
        rw [hf] at h
        cases bf with
        | true =>
          have h2 := Option.some.inj h
          obtain ⟨k, hk, hkw⟩ := player_can_go_true_iff.mp hf
          refine ⟨k, ?_, hkw⟩
          rw [← h2]
          exact hk
        | false =>
          cases hl : player_can_go_left m p with
          | none =>
            rw [hl] at h
            exact absurd h (by simp)
          | some bl =>
            rw [hl] at h
            cases bl with
            | true =>
              have h2 := Option.some.inj h
              obtain ⟨k, hk, hkw⟩ := player_can_go_true_iff.mp hl
              refine ⟨k, ?_, hkw⟩
              rw [← h2]
              exact hk
            | false =>
              have h2 := Option.some.inj h
              exact absurd (show p2.orientation = p.orientation.turn_around by
                rw [← h2]
                rfl) hnb

lemma process_chain (m : Maze) :
    ∀ (fuel : Nat) (p : Player) (seen : List Pose) (out : Outcome) (traj : List Pose),
      List.Chain' (stepRel m) (seen ++ [p.to_Pose]) →
      process m fuel p seen = some (out, traj) →
      List.Chain' (stepRel m) traj := by
  intro fuel
  induction fuel with
  | zero =>
    intro p seen out traj _ h
    simp [process] at h
  | succ n ih =>
    intro p seen out traj hc h
    simp only [process] at h
    by_cases hg : p.position = m.goal
    · rw [if_pos hg] at h
      have h2 := Option.some.inj h
      injection h2 with hout htraj
      subst htraj
      exact hc
    · rw [if_neg hg] at h
      by_cases hm : p.to_Pose ∈ seen
      · rw [if_pos hm] at h
        have h2 := Option.some.inj h
        injection h2 with hout htraj
        subst htraj
        exact hc
      · rw [if_neg hm] at h
        cases hstep : trialStep m p with
        | none =>
          rw [hstep] at h
          have h2 := Option.some.inj h
          injection h2 with hout htraj
          subst htraj
          exact hc
        | some p2 =>
          rw [hstep] at h
          refine ih p2 (seen ++ [p.to_Pose]) out traj ?_ h
          have hrel : stepRel m p.to_Pose p2.to_Pose := hstep
          exact List.Chain'.append hc (List.chain'_singleton _) (by
            intro x hx y hy
            rw [List.getLast?_concat] at hx
            simp only [List.head?_cons, Option.mem_def, Option.some.injEq] at hx hy
            rw [← hx, ← hy]
            exact hrel)

/-- C3 (amended): in any completed trace, every transition whose new
orientation is not the about-face of the previous one was chosen through
a passability test and therefore lands on an existing non-Wall cell;
the unconditional about-face fallback is the one exception and may land
on a Wall. -/
theorem wall_safety_amended (m : Maze) (p : Player) (fuel : Nat) (out : Outcome)
    (traj : List Pose) (h : run m p fuel = some (out, traj)) (i : Nat)
    (hi1 : i + 1 < traj.length)
    (hnb : (traj.get ⟨i + 1, hi1⟩).orientation ≠
      (traj.get ⟨i, Nat.lt_of_succ_lt hi1⟩).orientation.turn_around) :
    ∃ k, cellAt m (traj.get ⟨i + 1, hi1⟩).position = some k ∧ k ≠ EFloor.Wall := by
  have hchain := process_chain m fuel p [] out traj (List.chain'_singleton _) h
  have hrel := List.chain'_iff_get.mp hchain i (by omega)
  exact trialStep_tested_not_wall hrel hnb

/-- Refutation of C3 as stated: the parseable maze `"***\n*o*\n***\nx"`
yields an `Unsolvable` run whose second loop-entry position (1,0) is a
Wall cell — the about-face transition stepped onto a Wall. -/
theorem wall_safety_counterexample :
    Maze.parse "***\n*o*\n***\nx" = .ok boxedMaze ∧
    run boxedMaze ⟨⟨1, 1⟩, .East⟩ 10 =
      some (.Unsolvable, [⟨⟨1, 1⟩, .East⟩, ⟨⟨1, 0⟩, .West⟩, ⟨⟨1, 1⟩, .East⟩]) ∧
    cellAt boxedMaze ⟨1, 0⟩ = some EFloor.Wall := by
  decide

/-- Closed instance of `wall_safety_amended` on the `chamberMaze` run. -/
theorem wall_safety_amended_witness :
    ∃ k, cellAt chamberMaze (chamberTraj.get ⟨0 + 1, by decide⟩).position = some k ∧
      k ≠ EFloor.Wall :=
  wall_safety_amended chamberMaze ⟨⟨1, 1⟩, .East⟩ 10 .Unsolvable chamberTraj
    (by decide) 0 (by decide) (by decide)

lemma mem_poseFinset {m : Maze} {q : Pose} :
    q ∈ poseFinset m ↔ posBound m q.position := by
  unfold poseFinset posBound
  constructor
  · intro hq
    simp only [Finset.mem_image, Finset.mem_product, Finset.mem_Icc] at hq
    obtain ⟨t, ⟨⟨hx1, hx2⟩, ⟨hy1, hy2⟩, _⟩, rfl⟩ := hq
    exact ⟨hx1, hx2, hy1, hy2⟩
  · intro hb
    simp only [Finset.mem_image, Finset.mem_product, Finset.mem_Icc]
    exact ⟨⟨q.position.x, q.position.y, q.orientation⟩,
      ⟨⟨hb.1, hb.2.1⟩, ⟨hb.2.2.1, hb.2.2.2⟩, Finset.mem_univ _⟩, rfl⟩

lemma card_poseFinset (m : Maze) : (poseFinset m).card ≤ NBound m := by
  unfold poseFinset NBound
  refine le_trans Finset.card_image_le ?_
  rw [Finset.card_product, Finset.card_product, Int.card_Icc, Int.card_Icc]
  have hcard : (Finset.univ : Finset EOrientation).card = 4 := by decide
  rw [hcard]
  have h1 : ((m.floor.length : Int) + 1 - -((m.floor.length : Int) + 1)).toNat =
      2 * m.floor.length + 2 := by omega
  have h2 : ((maxRowLen m.floor : Int) + 1 - -((maxRowLen m.floor : Int) + 1)).toNat =
      2 * maxRowLen m.floor + 2 := by omega
  rw [h1, h2]

lemma cellAt_bounds {m : Maze} {pos : Point2D} {k : EFloor}
    (h : cellAt m pos = some k) :
    -(m.floor.length : Int) ≤ pos.x ∧ pos.x < m.floor.length ∧
    -(maxRowLen m.floor : Int) ≤ pos.y ∧ pos.y < maxRowLen m.floor := by
  obtain ⟨row, hr, hc⟩ := cellAt_some_elim h
  have hx := pyGet_some_bounds hr
  have hy := pyGet_some_bounds hc
  have hlen := length_le_maxRowLen (pyGet_mem hr)
  omega

lemma player_can_go_some_elim {m : Maze} {pos : Point2D} {b : Bool}
    (h : player_can_go m pos = some b) : ∃ k, cellAt m pos = some k := by
  unfold player_can_go at h
  cases hc : cellAt m pos with
  | none =>
    rw [hc] at h
    exact absurd h (by simp)
  | some k => exact ⟨k, rfl⟩

/-- Every successful loop-body decision lands inside the index box: a
tested candidate lands on a looked-up (hence in-range) cell, and the
about-face lands one step from the in-range right-probe cell. -/
lemma trialStep_posBound {m : Maze} {p p2 : Player}
    (h : trialStep m p = some p2) : posBound m p2.position := by
  unfold trialStep at h
  cases hr : player_can_go_right m p with
  | none =>
    rw [hr] at h
    exact absurd h (by simp)
  | some br =>
    rw [hr] at h
    obtain ⟨kr, hkr⟩ := player_can_go_some_elim hr
    have hbr := cellAt_bounds hkr
    cases br with
    | true =>
      have h2 := Option.some.inj h
      rw [← h2]
      unfold posBound
      simp only [Player.step_forward, Player.turn_to_the_right, Point2D.add_def] at hbr ⊢
      omega
    | false =>
      cases hf : player_can_go_forward m p with
      | none =>
        rw [hf] at h
        exact absurd h (by simp)
      | some bf =>
        rw [hf] at h
        cases bf with
        | true =>
          have h2 := Option.some.inj h
          obtain ⟨kf, hkf⟩ := player_can_go_some_elim hf
          have hbf := cellAt_bounds hkf
          rw [← h2]
          unfold posBound
          simp only [Player.step_forward, Player.keep_orientation, Point2D.add_def] at hbf ⊢
          omega
        | false =>
          cases hl : player_can_go_left m p with
          | none =>
            rw [hl] at h
            exact absurd h (by simp)
          | some bl =>
            rw [hl] at h
            cases bl with
            | true =>
              have h2 := Option.some.inj h
              obtain ⟨kl, hkl⟩ := player_can_go_some_elim hl
              have hbl := cellAt_bounds hkl
              rw [← h2]
              unfold posBound
              simp only [Player.step_forward, Player.turn_to_the_left, Point2D.add_def] at hbl ⊢
              omega
            | false =>
              have h2 := Option.some.inj h
              rw [← h2]
              unfold posBound
              obtain ⟨ppos, por⟩ := p
              cases por <;>
                simp only [Player.step_forward, Player.turn_around, Player.turn_to_the_right,
                  EOrientation.turn_to_the_right, EOrientation.turn_around,
                  EOrientation.value, Point2D.add_def] at hbr ⊢ <;>
                omega

lemma process_mem_poseFinset (m : Maze) :
    ∀ (fuel : Nat) (p : Player) (seen : List Pose) (out : Outcome) (traj : List Pose),
      (∀ q ∈ seen, q ∈ poseFinset m) → p.to_Pose ∈ poseFinset m →
      process m fuel p seen = some (out, traj) → ∀ q ∈ traj, q ∈ poseFinset m := by
  intro fuel
  induction fuel with
  | zero =>
    intro p seen out traj _ _ h
    simp [process] at h
  | succ n ih =>
    intro p seen out traj hseen hp h
    simp only [process] at h
    have hsnoc : ∀ q ∈ seen ++ [p.to_Pose], q ∈ poseFinset m := by
      intro q hq
      rcases List.mem_append.mp hq with h1 | h2
      · exact hseen q h1
      · rw [List.mem_singleton.mp h2]
        exact hp
    by_cases hg : p.position = m.goal
    · rw [if_pos hg] at h
      have h2 := Option.some.inj h
      injection h2 with hout htraj
      subst htraj
      exact hsnoc
    · rw [if_neg hg] at h
      by_cases hm : p.to_Pose ∈ seen
      · rw [if_pos hm] at h
        have h2 := Option.some.inj h
        injection h2 with hout htraj
        subst htraj
        exact hsnoc
      · rw [if_neg hm] at h
        cases hstep : trialStep m p with
        | none =>
          rw [hstep] at h
          have h2 := Option.some.inj h
          injection h2 with hout htraj
          subst htraj
          exact hsnoc
        | some p2 =>
          rw [hstep] at h
          exact ih p2 (seen ++ [p.to_Pose]) out traj hsnoc
            (mem_poseFinset.mpr (trialStep_posBound hstep)) h

lemma nodup_length_le {l : List Pose} {s : Finset Pose} (hnd : l.Nodup)
    (hsub : ∀ q ∈ l, q ∈ s) : l.length ≤ s.card := by
  rw [← List.toFinset_card_of_nodup hnd]
  apply Finset.card_le_card
  intro x hx
  exact hsub x (List.mem_toFinset.mp hx)

lemma process_none_bound (m : Maze) :
    ∀ (fuel : Nat) (p : Player) (seen : List Pose),
      seen.Nodup → (∀ q ∈ seen, q ∈ poseFinset m) → p.to_Pose ∈ poseFinset m →
      process m fuel p seen = none → fuel + seen.length ≤ (poseFinset m).card := by
  intro fuel
  induction fuel with
  | zero =>
    intro p seen hnd hsub _ _
    simpa using nodup_length_le hnd hsub
  | succ n ih =>
    intro p seen hnd hsub hp h
    simp only [process] at h
    by_cases hg : p.position = m.goal
    · rw [if_pos hg] at h
      exact absurd h (by simp)
    · rw [if_neg hg] at h
      by_cases hm : p.to_Pose ∈ seen
      · rw [if_pos hm] at h
        exact absurd h (by simp)
      · rw [if_neg hm] at h
        cases hstep : trialStep m p with
        | none =>
          rw [hstep] at h
          exact absurd h (by simp)
        | some p2 =>
          rw [hstep] at h
          have hrec := ih p2 (seen ++ [p.to_Pose]) (nodup_snoc.mpr ⟨hnd, hm⟩)
            (by
              intro q hq
              rcases List.mem_append.mp hq with h1 | h2
              · exact hsub q h1
              · rw [List.mem_singleton.mp h2]
                exact hp)
            (mem_poseFinset.mpr (trialStep_posBound hstep)) h
          simp only [List.length_append, List.length_singleton] at hrec
          omega

/-- C4 (amended): a run started anywhere in the index box completes within
fuel NBound+1 = (2R+2)·(2C+2)·4 + 1 (R rows, longest row C), and its
loop-entry trajectory — one entry per transition plus the terminal entry —
has at most NBound+1 elements, because each loop iteration records a
previously unseen pose drawn from the finite box of wrap-reachable
positions times the four orientations. -/
theorem termination_bound_amended (m : Maze) (p : Player) (hp : posBound m p.position) :
    ∃ (out : Outcome) (traj : List Pose),
      run m p (NBound m + 1) = some (out, traj) ∧ traj.length ≤ NBound m + 1 := by
  have hpmem : p.to_Pose ∈ poseFinset m := mem_poseFinset.mpr hp
  have hcard := card_poseFinset m
  cases hres : run m p (NBound m + 1) with
  | none =>
    exfalso
    have hb := process_none_bound m (NBound m + 1) p [] List.nodup_nil (by simp) hpmem hres
    simp at hb
    omega
  | some r =>
    obtain ⟨out, traj⟩ := r
    refine ⟨out, traj, rfl, ?_⟩
    have hmem := process_mem_poseFinset m (NBound m + 1) p [] out traj (by simp) hpmem hres
    obtain ⟨hS, hU, hC⟩ :=
      process_char m (NBound m + 1) p [] out traj List.nodup_nil (by simp) hres
    cases out with
    | Solved =>
      obtain ⟨pre, fin, htr, _, hndp, _⟩ := hS rfl
      subst htr
      have hlen := nodup_length_le hndp
        (fun q hq => hmem q (List.mem_append.mpr (Or.inl hq)))
      simp only [List.length_append, List.length_singleton]
      omega
    | Unsolvable =>
      obtain ⟨pre, fin, htr, _, _, hndp, _⟩ := hU rfl
      subst htr
      have hlen := nodup_length_le hndp
        (fun q hq => hmem q (List.mem_append.mpr (Or.inl hq)))
      simp only [List.length_append, List.length_singleton]
      omega
    | Crashed =>
      obtain ⟨hnd, _⟩ := hC rfl
      have hlen := nodup_length_le hnd hmem
      omega

/-- Refutation of the mechanism stated in C4: on the parseable maze
`"ox"` (start facing South) the loop records the poses ((0,-1), West),
((-1,-1), North) and ((-1,0), East), whose positions are not cells of the
grid — the recorded poses are not drawn from the set of (cell,
orientation) pairs, because Python wrap-around indexing lets the agent
walk at negative coordinates. -/
theorem termination_mechanism_counterexample :
    Maze.parse "ox" = .ok mazeOX ∧
    run mazeOX ⟨⟨0, 0⟩, .South⟩ 20 =
      some (.Unsolvable,
        [⟨⟨0, 0⟩, .South⟩, ⟨⟨0, -1⟩, .West⟩, ⟨⟨-1, -1⟩, .North⟩, ⟨⟨-1, 0⟩, .East⟩,
         ⟨⟨0, 0⟩, .South⟩]) ∧
    isCell mazeOX ⟨0, -1⟩ = false := by
  decide

/-- Closed instance of `termination_bound_amended` on `mazeOX`. -/
theorem termination_bound_amended_witness :
    ∃ (out : Outcome) (traj : List Pose),
      run mazeOX ⟨⟨0, 0⟩, .South⟩ (NBound mazeOX + 1) = some (out, traj) ∧
      traj.length ≤ NBound mazeOX + 1 :=
  termination_bound_amended mazeOX ⟨⟨0, 0⟩, .South⟩ (by decide)

lemma EFloor.of_ok_of_glyph {c : Char} (h : isGlyph c = true) :
    ∃ f, EFloor.of c = .ok f := by
  have h2 : c = ' ' ∨ c = '*' ∨ c = 'o' ∨ c = 'x' := by
    simpa [isGlyph, or_assoc] using h
  rcases h2 with rfl | rfl | rfl | rfl
  · exact ⟨.Normal, by decide⟩
  · exact ⟨.Wall, by decide⟩
  · exact ⟨.Start, by decide⟩
  · exact ⟨.Goal, by decide⟩

lemma EFloor.of_bad {c : Char} (h : isGlyph c = false) :
    EFloor.of c = .error (.InvalidGlyph (invalidCharMsg c)) := by
  have h2 : ((¬c = ' ' ∧ ¬c = '*') ∧ ¬c = 'o') ∧ ¬c = 'x' := by
    simpa [isGlyph] using h
  unfold EFloor.of
  rw [if_neg h2.1.1.1, if_neg h2.1.1.2, if_neg h2.1.2, if_neg h2.2]

lemma mapOf_clean {line : List Char} (h : ∀ c ∈ line, isGlyph c = true) :
    ∃ row, mapOf line = .ok row := by
  induction line with
  | nil => exact ⟨[], rfl⟩
  | cons c cs ih =>
    obtain ⟨f, hf⟩ := EFloor.of_ok_of_glyph (h c (List.mem_cons_self c cs))
    obtain ⟨row, hrow⟩ := ih (fun d hd => h d (List.mem_cons_of_mem c hd))
    exact ⟨f :: row, by simp [mapOf, hf, hrow]⟩

lemma mapOf_bad {line : List Char} {c : Char}
    (h : line.find? (fun d => !(isGlyph d)) = some c) :
    mapOf line = .error (.InvalidGlyph (invalidCharMsg c)) := by
  induction line with
  | nil => simp [List.find?] at h
  | cons d rest ih =>
    rw [List.find?_cons] at h
    cases hd : isGlyph d with
    | false =>
      rw [hd] at h
      have hdc : d = c := by simpa using h
      subst hdc
      simp [mapOf, EFloor.of_bad hd]
    | true =>
      rw [hd] at h
      obtain ⟨f, hf⟩ := EFloor.of_ok_of_glyph hd
      simp only [mapOf, hf]
      rw [ih (by simpa using h)]

lemma rowsOf_bad {lines : List (List Char)} {c : Char}
    (h : lines.flatten.find? (fun d => !(isGlyph d)) = some c) :
    rowsOf lines = .error (.InvalidGlyph (invalidCharMsg c)) := by
  induction lines with
  | nil => simp [List.find?] at h
  | cons line rest ih =>
    rw [List.flatten_cons, List.find?_append] at h
    cases hline : line.find? (fun d => !(isGlyph d)) with
    | some c1 =>
      rw [hline] at h
      have hc : c1 = c := by simpa [Option.or] using h
      subst hc
      simp [rowsOf, mapOf_bad hline]
    | none =>
      rw [hline] at h
      have hclean : ∀ d ∈ line, isGlyph d = true := by
        intro d hd
        have := List.find?_eq_none.mp hline d hd
        simpa using this
      obtain ⟨row, hrow⟩ := mapOf_clean hclean
      simp only [rowsOf, hrow]
      rw [ih (by simpa [Option.or] using h)]

/-- C6 (amended): when the text does contain both markers, the first
character outside the glyph table (in line-major reading order of the
split lines) aborts parsing with the `InvalidGlyph` error carrying the
message for exactly that character. -/
theorem invalid_glyph_amended (s : String) (c : Char)
    (ho : 'o' ∈ s.data) (hx : 'x' ∈ s.data)
    (hfind : (splitlines s.data).flatten.find? (fun d => !(isGlyph d)) = some c) :
    Maze.parse s = .error (.InvalidGlyph (invalidCharMsg c)) := by
  have hv : Maze.validate s.data = .ok () := by
    unfold Maze.validate
    rw [if_pos ho, if_pos hx]
  simp [Maze.parse, hv, rowsOf_bad hfind]

/-- Refutation of C6 as stated: the text `"#"` contains a character
outside the glyph table, yet parse fails with the missing-start
`MissingMarker` error, not with `InvalidGlyph`, because `_validate` runs
before any glyph conversion. -/
theorem invalid_glyph_counterexample :
    Maze.parse "#" = .error (.MissingMarker missingStartMsg) ∧
    Maze.parse "#" ≠ .error (.InvalidGlyph (invalidCharMsg '#')) := by
  decide

/-- Closed instance of `invalid_glyph_amended`. -/
theorem invalid_glyph_amended_witness :
    Maze.parse "o#x" = .error (.InvalidGlyph (invalidCharMsg '#')) :=
  invalid_glyph_amended "o#x" '#' (by decide) (by decide) (by decide)

/-- C7: a text with no start glyph fails with the missing-start
`MissingMarker` message (even when the goal glyph is also missing — the
start check runs first), a text with a start glyph but no goal glyph
fails with the distinct missing-goal message, and the two messages carry
the respective phrases. -/
theorem missing_marker (s : String) :
    ('o' ∉ s.data → Maze.parse s = .error (.MissingMarker missingStartMsg)) ∧
    ('o' ∈ s.data → 'x' ∉ s.data →
      Maze.parse s = .error (.MissingMarker missingGoalMsg)) ∧
    missingStartMsg ≠ missingGoalMsg ∧
    ("Cannot find the beginning position.".data).IsInfix missingStartMsg.data ∧
    ("Cannot find the exit position.".data).IsInfix missingGoalMsg.data := by
  refine ⟨?_, ?_, by decide, ⟨"Error: ".data, " Abort program.".data, by decide⟩,
    ⟨"Error: ".data, " Abort program.".data, by decide⟩⟩
  · intro ho
    have hv : Maze.validate s.data = .error (.MissingMarker missingStartMsg) := by
      unfold Maze.validate
      rw [if_neg ho]
    simp [Maze.parse, hv]
  · intro ho hx
    have hv : Maze.validate s.data = .error (.MissingMarker missingGoalMsg) := by
      unfold Maze.validate
      rw [if_pos ho, if_neg hx]
    simp [Maze.parse, hv]

/-- Closed instance of `missing_marker`: `"x"` lacks the start marker,
`"o"` lacks the goal marker. -/
theorem missing_marker_witness :
    Maze.parse "x" = .error (.MissingMarker missingStartMsg) ∧
    Maze.parse "o" = .error (.MissingMarker missingGoalMsg) :=
  ⟨(missing_marker "x").1 (by decide), (missing_marker "o").2.1 (by decide) (by decide)⟩

lemma of_to_char (f : EFloor) : EFloor.of f.to_char = .ok f := by
  cases f <;> decide

lemma to_char_not_term (f : EFloor) : isLineTerm f.to_char = false := by
  cases f <;> decide

lemma mapOf_map_to_char (row : List EFloor) :
    mapOf (row.map EFloor.to_char) = .ok row := by
  induction row with
  | nil => rfl
  | cons f fs ih => simp [mapOf, of_to_char, ih]

lemma rowsOf_map (rows : List (List EFloor)) :
    rowsOf (rows.map (fun r => r.map EFloor.to_char)) = .ok rows := by
  induction rows with
  | nil => rfl
  | cons r rest ih => simp [rowsOf, mapOf_map_to_char, ih]

lemma splitlinesAux_clean :
    ∀ (line rest acc : List Char), (∀ c ∈ line, isLineTerm c = false) →
      splitlinesAux (line ++ rest) acc = splitlinesAux rest (line.reverse ++ acc) := by
  intro line
  induction line with
  | nil =>
    intro rest acc _
    simp
  | cons c cs ih =>
    intro rest acc hcl
    have hc : isLineTerm c = false := hcl c (List.mem_cons_self c cs)
    have hcs : ∀ d ∈ cs, isLineTerm d = false :=
      fun d hd => hcl d (List.mem_cons_of_mem c hd)
    have hc1 : ¬c = '\n' := by
      intro hh
      subst hh
      simp [isLineTerm] at hc
    have hc2 : ¬c = '\r' := by
      intro hh
      subst hh
      simp [isLineTerm] at hc
    cases hsh : cs ++ rest with
    | nil =>
      obtain ⟨hcs0, hrest0⟩ := List.append_eq_nil.mp hsh
      subst hcs0
      subst hrest0
      simp [splitlinesAux, hc]
    | cons d rest2 =>
      rw [List.cons_append, hsh]
      rw [show splitlinesAux (c :: d :: rest2) acc = splitlinesAux (d :: rest2) (c :: acc) by
        simp [splitlinesAux, hc1, hc2]]
      rw [← hsh, ih rest (c :: acc) hcs]
      simp [List.append_assoc]

lemma joinLines_ne_nil : ∀ {rows : List (List Char)}, rows ≠ [] →
    rows.getLast? ≠ some [] → joinLines rows ≠ [] := by
  intro rows h1 h2
  cases rows with
  | nil => exact absurd rfl h1
  | cons r rest =>
    cases rest with
    | nil =>
      intro hj
      have hr : r = [] := hj
      subst hr
      exact h2 (by decide)
    | cons b rest2 =>
      intro hj
      rw [show joinLines (r :: b :: rest2) = r ++ '\n' :: joinLines (b :: rest2) from rfl] at hj
      simp at hj

lemma mem_joinLines {c : Char} : ∀ {rows : List (List Char)} {row : List Char},
    row ∈ rows → c ∈ row → c ∈ joinLines rows := by
  intro rows
  induction rows with
  | nil =>
    intro row h _
    simp at h
  | cons r rest ih =>
    intro row hrow hc
    cases rest with
    | nil =>
      have hr : row = r := List.mem_singleton.mp hrow
      subst hr
      exact hc
    | cons b rest2 =>
      rcases List.mem_cons.mp hrow with h1 | h2
      · subst h1
        show c ∈ row ++ '\n' :: joinLines (b :: rest2)
        exact List.mem_append.mpr (Or.inl hc)
      · show c ∈ r ++ '\n' :: joinLines (b :: rest2)
        exact List.mem_append.mpr (Or.inr (List.mem_cons_of_mem _ (ih h2 hc)))

lemma splitlines_joinLines :
    ∀ (rows : List (List Char)),
      (∀ row ∈ rows, ∀ c ∈ row, isLineTerm c = false) →
      rows ≠ [] → rows.getLast? ≠ some [] →
      splitlines (joinLines rows) = rows := by
  intro rows
  induction rows with
  | nil =>
    intro _ h _
    exact absurd rfl h
  | cons r rest ih =>
    intro hcl _ hlast
    cases rest with
    | nil =>
      have hr : r ≠ [] := by
        intro hh
        refine hlast ?_
        rw [hh]
        decide
      have hstep := splitlinesAux_clean r [] [] (hcl r (List.mem_cons_self r []))
      rw [List.append_nil] at hstep
      show splitlinesAux r [] = [r]
      rw [hstep]
      cases hrev : r.reverse with
      | nil => exact absurd (List.reverse_eq_nil_iff.mp hrev) hr
      | cons a as =>
        rw [List.append_nil]
        show [(a :: as).reverse] = [r]
        rw [← hrev, List.reverse_reverse]
    | cons b rest2 =>
      have hclr : ∀ c ∈ r, isLineTerm c = false := hcl r (List.mem_cons_self r _)
      have hclrest : ∀ row ∈ b :: rest2, ∀ c ∈ row, isLineTerm c = false :=
        fun row hrow => hcl row (List.mem_cons_of_mem r hrow)
      have hlast2 : (b :: rest2).getLast? ≠ some [] := by
        rwa [List.getLast?_cons_cons] at hlast
      have hjoin_ne := joinLines_ne_nil (by simp) hlast2
      show splitlinesAux (joinLines (r :: b :: rest2)) [] = _
      rw [show joinLines (r :: b :: rest2) = r ++ '\n' :: joinLines (b :: rest2) from rfl]
      rw [splitlinesAux_clean r ('\n' :: joinLines (b :: rest2)) [] hclr]
      cases hjq : joinLines (b :: rest2) with
      | nil => exact absurd hjq hjoin_ne
      | cons e js =>
        rw [show splitlinesAux ('\n' :: e :: js) (r.reverse ++ []) =
            (r.reverse ++ []).reverse :: splitlinesAux (e :: js) [] by
          simp [splitlinesAux]]
        rw [← hjq]
        have ih2 : splitlinesAux (joinLines (b :: rest2)) [] = b :: rest2 :=
          ih hclrest (by simp) hlast2
        rw [ih2]
        simp

lemma find_xy_mem {kind : EFloor} : ∀ {fl : List (List EFloor)} {p : Point2D},
    find_xy kind fl = some p → ∃ row ∈ fl, kind ∈ row := by
  intro fl
  induction fl with
  | nil =>
    intro p h
    simp [find_xy] at h
  | cons row rest ih =>
    intro p h
    simp only [find_xy] at h
    by_cases hm : kind ∈ row
    · exact ⟨row, List.mem_cons_self _ _, hm⟩
    · rw [if_neg hm] at h
      cases hrec : find_xy kind rest with
      | none =>
        rw [hrec] at h
        exact absurd h (by simp)
      | some p2 =>
        obtain ⟨row2, hrow2, hk⟩ := ih hrec
        exact ⟨row2, List.mem_cons_of_mem _ hrow2, hk⟩

lemma parse_ok_elim {s : String} {m : Maze} (h : Maze.parse s = .ok m) :
    Maze.validate s.data = .ok () ∧
    rowsOf (splitlines s.data) = .ok m.floor ∧
    find_xy .Start m.floor = some m.start ∧
    find_xy .Goal m.floor = some m.goal := by
  unfold Maze.parse at h
  split at h
  · exact absurd h (by simp)
  · rename_i hv
    split at h
    · exact absurd h (by simp)
    · rename_i floors hrows
      split at h
      · rename_i st gl hst hgl
        have h2 := Except.ok.inj h
        subst h2
        exact ⟨hv, hrows, hst, hgl⟩
      · exact absurd h (by simp)

/-- C8 (amended): re-parsing the rendered text of a parsed maze yields an
identical maze — same grid of cell kinds, same start, same goal —
provided the parsed grid has no trailing empty row (a trailing blank line
of the input); rendering joins rows with the line separator, so a trailing
empty row is dropped by the re-split. -/
theorem roundtrip_amended (s : String) (m : Maze) (h : Maze.parse s = .ok m)
    (hlast : m.floor.getLast? ≠ some ([] : List EFloor)) :
    Maze.parse (Maze.to_string m) = .ok m := by
  obtain ⟨hv, hrows, hst, hgl⟩ := parse_ok_elim h
  obtain ⟨row0, hrow0, hkin0⟩ := find_xy_mem hst
  obtain ⟨row1, hrow1, hkin1⟩ := find_xy_mem hgl
  have hfne : m.floor ≠ [] := by
    intro hh
    rw [hh] at hrow0
    simp at hrow0
  have hdata : (Maze.to_string m).data =
      joinLines (m.floor.map (fun r => r.map EFloor.to_char)) := rfl
  have ho : 'o' ∈ (Maze.to_string m).data := by
    rw [hdata]
    exact mem_joinLines (List.mem_map_of_mem _ hrow0) (List.mem_map_of_mem _ hkin0)
  have hx : 'x' ∈ (Maze.to_string m).data := by
    rw [hdata]
    exact mem_joinLines (List.mem_map_of_mem _ hrow1) (List.mem_map_of_mem _ hkin1)
  have hvr : Maze.validate (Maze.to_string m).data = .ok () := by
    unfold Maze.validate
    rw [if_pos ho, if_pos hx]
  have hsplit : splitlines (Maze.to_string m).data =
      m.floor.map (fun r => r.map EFloor.to_char) := by
    rw [hdata]
    refine splitlines_joinLines _ ?_ ?_ ?_
    · intro row hrow c hc
      obtain ⟨r, _, rfl⟩ := List.mem_map.mp hrow
      obtain ⟨f, _, rfl⟩ := List.mem_map.mp hc
      exact to_char_not_term f
    · intro hh
      exact hfne (List.map_eq_nil_iff.mp hh)
    · rw [List.getLast?_map]
      intro hh
      cases hgl2 : m.floor.getLast? with
      | none => rw [hgl2] at hh; simp at hh
      | some r =>
        rw [hgl2] at hh
        simp only [Option.map_some', Option.some.injEq] at hh
        exact hlast (by rw [hgl2, List.map_eq_nil_iff.mp hh])
  have hrowsOf : rowsOf (splitlines (Maze.to_string m).data) = .ok m.floor := by
    rw [hsplit]
    exact rowsOf_map m.floor
  simp only [Maze.parse, hvr, hrowsOf, hst, hgl]

/-- Refutation of C8 as stated: `"o\nx\n\n"` parses to a grid with a
trailing empty row, its rendering re-parses to a maze with a different
grid of cell kinds (the empty row is gone). -/
theorem roundtrip_counterexample :
    Maze.parse "o\nx\n\n" = .ok ⟨[[.Start], [.Goal], []], ⟨0, 0⟩, ⟨1, 0⟩⟩ ∧
    Maze.to_string (⟨[[.Start], [.Goal], []], ⟨0, 0⟩, ⟨1, 0⟩⟩ : Maze) = "o\nx\n" ∧
    Maze.parse "o\nx\n" = .ok ⟨[[.Start], [.Goal]], ⟨0, 0⟩, ⟨1, 0⟩⟩ ∧
    ([[EFloor.Start], [EFloor.Goal]] : List (List EFloor)) ≠
      [[.Start], [.Goal], []] := by
  decide

/-- Closed instance of `roundtrip_amended`. -/
theorem roundtrip_amended_witness :
    Maze.parse (Maze.to_string (⟨[[.Start], [.Goal]], ⟨0, 0⟩, ⟨1, 0⟩⟩ : Maze)) =
      .ok ⟨[[.Start], [.Goal]], ⟨0, 0⟩, ⟨1, 0⟩⟩ :=
  roundtrip_amended "o\nx" ⟨[[.Start], [.Goal]], ⟨0, 0⟩, ⟨1, 0⟩⟩ (by decide) (by decide)

end MazeSolver
